import Mathlib

/-!
A verification development for the Ralphy task-orchestration plugin
(`.opencode/plugin/` of the repository): the task sources (markdown
checklist, structured YAML, remote issue tracker), the git workspace
manager, and the parallel batch executor.

Modelling conventions:
* JavaScript strings are modelled as `List Char` (`Str`); a text document
  is modelled as its list of lines (split at the newline character).
* Machine numbers that the code only ever uses as exact integers
  (agent numbers, group ids) are modelled as `Nat`/`Int`.
* External effects (file reads, spawned commands, git calls) are inputs:
  a fallible read is an `Option`, git interactions are traced as events.
* Regex operations of the source are translated to explicit list
  functions; JS replacement-pattern metacharacters (`$&` and friends) are
  not modelled, the replacement text is inserted literally.
-/

namespace Ralphy

/-- JS strings, modelled as lists of characters. -/
abbrev Str := List Char

/-- The whitespace characters relevant to `String.prototype.trim`. -/
def wsChar (c : Char) : Bool := c = ' ' || c = '\t' || c = '\n' || c = '\r'

/-- Drop leading whitespace. -/
def trimLeft (l : Str) : Str := l.dropWhile wsChar

/-- Drop trailing whitespace. -/
def trimRight (l : Str) : Str := (l.reverse.dropWhile wsChar).reverse

/-- Model of `String.prototype.trim`. -/
def jsTrim (l : Str) : Str := trimRight (trimLeft l)

/-- The double-quote character. -/
def dq : Char := Char.ofNat 34

/-- The single-quote character. -/
def sq : Char := Char.ofNat 39

/-- The backquote character. -/
def bq : Char := Char.ofNat 96

/-! ### utils.ts -/

/-- `text.toLowerCase()`, modelled per character (ASCII case mapping). -/
def jsToLower (l : Str) : Str := l.map Char.toLower

/-- Membership in the character class `[a-z0-9]` of `slugify`. -/
def slugChar (c : Char) : Bool := ('a' ≤ c && c ≤ 'z') || ('0' ≤ c && c ≤ '9')

mutual
/-- `replace(/[^a-z0-9]+/g, "-")`: each maximal run of characters outside
`[a-z0-9]` is collapsed into a single hyphen. -/
def collapseRuns : Str → Str
  | [] => []
  | c :: cs => if slugChar c then c :: collapseRuns cs else '-' :: skipRun cs

/-- Continuation of `collapseRuns` inside a non-alphanumeric run whose
hyphen has already been emitted. -/
def skipRun : Str → Str
  | [] => []
  | c :: cs => if slugChar c then c :: collapseRuns cs else skipRun cs
end

/-- `replace(/^-|-$/g, "")`, leading half: remove one leading hyphen. -/
def stripLeadHyphen (l : Str) : Str :=
  if l.head? = some '-' then l.tail else l

/-- `replace(/^-|-$/g, "")`, trailing half: remove one trailing hyphen. -/
def stripTailHyphen (l : Str) : Str :=
  if l.getLast? = some '-' then l.dropLast else l

/-- `slugify` from `utils.ts`: lower-case, collapse non-alphanumeric runs
to hyphens, strip one leading and one trailing hyphen, truncate to 50
characters. -/
def slugify (text : Str) : Str :=
  (stripTailHyphen (stripLeadHyphen (collapseRuns (jsToLower text)))).take 50

/-- `readFile` from `utils.ts` returns the file contents, or the empty
string when the read fails; as a line list the empty string is `[[]]`.
The read outcome is the input: `none` models a thrown read error. -/
def readLines (r : Option (List Str)) : List Str := r.getD [[]]

/-- Split a string at every newline character, keeping empty segments
(the inverse of joining lines with a newline). -/
def splitNl : Str → List Str
  | [] => [[]]
  | c :: rest =>
    match splitNl rest with
    | [] => [[c]]
    | l :: ls => if c = '\n' then [] :: l :: ls else (c :: l) :: ls

/-- Join lines with single newline characters. -/
def joinLines : List Str → Str
  | [] => []
  | [l] => l
  | l :: l2 :: ls => l ++ '\n' :: joinLines (l2 :: ls)

/-- ECMA-262 `GetSubstitution` for a string replacement with zero
capture groups (the source pattern escapes every regex metacharacter,
so it has none): `$$`, `$&`, `` $` `` and `$'` are interpreted against
the matched text and the context before/after the match; every other
`$` — including `$1`..`$9`, which are literal when the pattern has
fewer capture groups — stays as it is. -/
def getSubstitution (matched pre suf : Str) : Str → Str
  | [] => []
  | c :: rest =>
    if c = '$' then
      match rest with
      | [] => ['$']
      | d :: rest2 =>
        if d = '$' then '$' :: getSubstitution matched pre suf rest2
        else if d = '&' then matched ++ getSubstitution matched pre suf rest2
        else if d = bq then pre ++ getSubstitution matched pre suf rest2
        else if d = sq then suf ++ getSubstitution matched pre suf rest2
        else '$' :: d :: getSubstitution matched pre suf rest2
    else c :: getSubstitution matched pre suf rest

/-! ### Markdown task source (`task-sources/markdown.ts`) -/

/-- The pending-checkbox marker `"- [ ] "`. -/
def pendingMarker : Str := "- [ ] ".toList

/-- The completed-checkbox replacement prefix `"- [x] "`. -/
def doneMarker : Str := "- [x] ".toList

/-- The bare pending pattern `/^- \[ \]/` used by `countRemaining`. -/
def pendingHead : Str := "- [ ]".toList

/-- The bare completed pattern `/^- \[x\]/` used by `countCompleted`. -/
def doneHead : Str := "- [x]".toList

/-- A line matching `/^- \[ \] .+$/`: the pending marker followed by at
least one character. -/
def isTaskLine (l : Str) : Bool := pendingMarker.isPrefixOf l && decide (6 < l.length)

/-- A line matching `/^- \[x\] .+$/`. -/
def isDoneTaskLine (l : Str) : Bool := doneMarker.isPrefixOf l && decide (6 < l.length)

/-- A task with completion status, as produced by `getAllTasks`. -/
structure TaskEntry where
  title : Str
  completed : Bool
deriving DecidableEq, Repr

namespace Markdown

/-- `MarkdownTaskSource.getRemainingTasks`. -/
def getRemainingTasks (doc : List Str) : List Str :=
  (doc.filter isTaskLine).map (fun l => l.drop 6)

/-- `MarkdownTaskSource.getAllTasks`: incomplete matches first, then
completed matches. -/
def getAllTasks (doc : List Str) : List TaskEntry :=
  ((doc.filter isTaskLine).map (fun l => TaskEntry.mk (l.drop 6) false)) ++
    ((doc.filter isDoneTaskLine).map (fun l => TaskEntry.mk (l.drop 6) true))

/-- `MarkdownTaskSource.countRemaining`. -/
def countRemaining (doc : List Str) : Nat :=
  (doc.filter (fun l => pendingHead.isPrefixOf l)).length

/-- `MarkdownTaskSource.countCompleted`. -/
def countCompleted (doc : List Str) : Nat :=
  (doc.filter (fun l => doneHead.isPrefixOf l)).length

/-- The first line carrying the pending pattern for the task, together
with the lines before and after it (the multiline anchor `^` makes the
pattern match only at line starts, and `escapeRegex` makes it match the
task text literally). -/
def findFirstMatch (pat : Str) : List Str → Option (List Str × Str × List Str)
  | [] => none
  | l :: ls =>
    if pat.isPrefixOf l then some ([], l, ls)
    else
      match findFirstMatch pat ls with
      | none => none
      | some (pre, m, rest) => some (l :: pre, m, rest)

/-- `MarkdownTaskSource.markComplete`: replace the first (multiline,
non-global) match of `^- \[ \] <escaped task>` by the replacement
string `- [x] ${task}`; the rest of the matched line is untouched.  The
matched text is `- [ ] <task>`, the part of the document before the
match is `pre` and everything after it is `suf`, and the replacement
string undergoes JS `$`-substitution (`getSubstitution`) against them
before being spliced in; no match leaves the document unchanged. -/
def markComplete (task : Str) (doc : List Str) : List Str :=
  match findFirstMatch (pendingMarker ++ task) doc with
  | none => doc
  | some (prevs, l, rest) =>
    let pre : Str := if prevs = [] then [] else joinLines prevs ++ ['\n']
    let suf : Str := l.drop (6 + task.length) ++
        (if rest = [] then [] else '\n' :: joinLines rest)
    splitNl (pre ++
      getSubstitution (pendingMarker ++ task) pre suf (doneMarker ++ task) ++ suf)

end Markdown

/-- A task entry of the structured (YAML) document. -/
structure YamlTask where
  title : Str
  completed : Bool
  parallel_group : Option Int
deriving DecidableEq, Repr

/-- `parseValue`: trim, then remove one layer of matching double or
single quotes (`startsWith`/`endsWith` plus `slice(1, -1)`). -/
def parseValue (value : Str) : Str :=
  let v := jsTrim value
  if (v.head? = some dq ∧ v.getLast? = some dq) ∨
      (v.head? = some sq ∧ v.getLast? = some sq) then
    (v.drop 1).dropLast
  else v

/-- Decimal digit test used by `parseInt(·, 10)`. -/
def isDigit (c : Char) : Bool := '0' ≤ c && c ≤ '9'

/-- Numeric value of the digit list, most significant first. -/
def digitsToNat (l : Str) : Nat := l.foldl (fun acc c => acc * 10 + (c.toNat - 48)) 0

/-- `parseInt(value, 10) || 0`: skip whitespace, optional sign, consume
leading decimal digits; no digits (`NaN`) and `-0` both collapse to 0.
The numeric value is modelled as an exact unbounded integer, while the
source produces a 64-bit float that rounds above `2^53`; the
round-trip theorems therefore restrict group ids to the safe-integer
range (magnitude at most `2^53`), where the model and the source agree
exactly, and the counterexamples use `10^21`, which is itself an exact
double. -/
def jsParseIntOr0 (v : Str) : Int :=
  let w := v.dropWhile wsChar
  if w.head? = some '-' then
    let ds := (w.drop 1).takeWhile isDigit
    if ds = [] then 0 else -(digitsToNat ds : Int)
  else if w.head? = some '+' then
    let ds := (w.drop 1).takeWhile isDigit
    if ds = [] then 0 else (digitsToNat ds : Int)
  else
    let ds := w.takeWhile isDigit
    if ds = [] then 0 else (digitsToNat ds : Int)

/-- State of the line-by-line loop of `parseSimpleYaml`. -/
structure ParseState where
  inTasks : Bool
  current : Option YamlTask
  acc : List YamlTask
deriving Repr

/-- `if (currentTask && currentTask.title) result.tasks.push(currentTask)`. -/
def flushCurrent (cur : Option YamlTask) (acc : List YamlTask) : List YamlTask :=
  match cur with
  | some t => if t.title ≠ [] then acc ++ [t] else acc
  | none => acc

/-- The assignment made for one `key: value` property line. -/
def applyKey (t : YamlTask) (key value : Str) : YamlTask :=
  if key = "title".toList then { t with title := parseValue value }
  else if key = "completed".toList then { t with completed := value = "true".toList }
  else if key = "parallel_group".toList then
    { t with parallel_group := some (jsParseIntOr0 value) }
  else t

/-- One iteration of the `for (const line of lines)` loop of
`parseSimpleYaml`. -/
def parseLineStep (st : ParseState) (line : Str) : ParseState :=
  let trimmed := jsTrim line
  if trimmed = [] then st
  else if trimmed.head? = some '#' then st
  else if trimmed = "tasks:".toList then { st with inTasks := true }
  else if st.inTasks = false then st
  else if "- ".toList.isPrefixOf trimmed then
    let acc2 := flushCurrent st.current st.acc
    let restOfLine := jsTrim (trimmed.drop 2)
    let t0 : YamlTask := { title := [], completed := false, parallel_group := none }
    let t1 :=
      if "title:".toList.isPrefixOf restOfLine then
        { t0 with title := parseValue (restOfLine.drop 6) }
      else t0
    { st with current := some t1, acc := acc2 }
  else
    match st.current with
    | some t =>
      if trimmed.contains ':' then
        let key := jsTrim (trimmed.takeWhile (fun c => ¬ c = ':'))
        let value := jsTrim ((trimmed.dropWhile (fun c => ¬ c = ':')).drop 1)
        { st with current := some (applyKey t key value) }
      else st
    | none => st

/-- `parseSimpleYaml`, on the line list of the document. -/
def parseSimpleYaml (doc : List Str) : List YamlTask :=
  let st := doc.foldl parseLineStep ⟨false, none, []⟩
  flushCurrent st.current st.acc

/-- Fuel-driven digit extraction; for any fuel above the number the
result is its decimal digits, most significant first. -/
def natDigitsGo : Nat → Nat → Str
  | 0, _ => []
  | fuel + 1, n =>
    if n < 10 then [Char.ofNat (48 + n)]
    else natDigitsGo fuel (n / 10) ++ [Char.ofNat (48 + n % 10)]

/-- Decimal digits of a natural number, most significant first
(the decimal rendering used by JS template interpolation). -/
def natDigits (n : Nat) : Str := natDigitsGo (n + 1) n

/-- Strip trailing `0` digits. -/
def stripTrailingZeros (l : Str) : Str :=
  (l.reverse.dropWhile (fun c => c = '0')).reverse

/-- JS exponential notation for an integer of magnitude `10^21` or
more: significant digits (with a decimal point after the first when
there are several), then `e+` and the decimal exponent. -/
def expNotation (n : Nat) : Str :=
  let ds := natDigits n
  let sig := stripTrailingZeros ds
  (match sig with
   | [] => ['0']
   | [c] => [c]
   | c :: rest => c :: '.' :: rest) ++ 'e' :: '+' :: natDigits (ds.length - 1)

/-- `${n}` for a nonnegative integer-valued JS number: numbers below
`10^21` render as their exact decimal digits, numbers from `10^21` on
render in exponential notation (`1e+21`). -/
def natToStrJs (n : Nat) : Str :=
  if n < 1000000000000000000000 then natDigits n else expNotation n

/-- Rendering of an integer-valued JS number (`${n}` in a template
literal).  The model keeps integers exact; this is faithful for every
JS number that is an exact integer, in particular for all magnitudes
up to `2^53` and for `10^21` itself. -/
def intToStr (i : Int) : Str :=
  if i < 0 then '-' :: natToStrJs i.natAbs else natToStrJs i.toNat

/-- The lines `stringifyYaml` emits for one task. -/
def taskLines (t : YamlTask) : List Str :=
  ("  - title: ".toList ++ [dq] ++ t.title ++ [dq]) ::
    ("    completed: ".toList ++ (if t.completed then "true".toList else "false".toList)) ::
    (match t.parallel_group with
     | some g => [("    parallel_group: ".toList ++ intToStr g)]
     | none => [])

/-- `stringifyYaml`, as the line list of the produced document. -/
def stringifyYaml (ts : List YamlTask) : List Str :=
  "tasks:".toList :: (ts.map taskLines).flatten

/-- `YamlTaskSource.markComplete` core: `tasks.find(t => t.title === task)`
followed by mutation of its `completed` field. -/
def markFirst (task : Str) : List YamlTask → List YamlTask
  | [] => []
  | t :: ts =>
    if t.title = task then { t with completed := true } :: ts
    else t :: markFirst task ts

namespace Yaml

/-- `YamlTaskSource.getRemainingTasks`. -/
def getRemainingTasks (doc : List Str) : List Str :=
  ((parseSimpleYaml doc).filter (fun t => !t.completed)).map (fun t => t.title)

/-- `YamlTaskSource.getAllTasks`. -/
def getAllTasks (doc : List Str) : List TaskEntry :=
  (parseSimpleYaml doc).map (fun t => TaskEntry.mk t.title t.completed)

/-- `YamlTaskSource.countRemaining`. -/
def countRemaining (doc : List Str) : Nat :=
  ((parseSimpleYaml doc).filter (fun t => !t.completed)).length

/-- `YamlTaskSource.countCompleted`. -/
def countCompleted (doc : List Str) : Nat :=
  ((parseSimpleYaml doc).filter (fun t => t.completed)).length

/-- `YamlTaskSource.getTasksByGroup`: incomplete tasks of the group, a
missing `parallel_group` counting as group 0. -/
def getTasksByGroup (doc : List Str) (group : Int) : List Str :=
  ((parseSimpleYaml doc).filter
      (fun t => !t.completed && t.parallel_group.getD 0 = group)).map (fun t => t.title)

/-- `YamlTaskSource.getParallelGroups`: the set of group ids of
incomplete tasks, sorted ascending.  The source inserts into a JS `Set`
and then sorts numerically; deduplication followed by an ascending sort
produces the same list. -/
def getParallelGroups (doc : List Str) : List Int :=
  List.insertionSort (· ≤ ·)
    ((((parseSimpleYaml doc).filter (fun t => !t.completed)).map
        (fun t => t.parallel_group.getD 0)).dedup)

/-- `YamlTaskSource.markComplete`: parse, mark the first exact-title
match complete, rewrite the whole document in canonical form. -/
def markComplete (doc : List Str) (task : Str) : List Str :=
  stringifyYaml (markFirst task (parseSimpleYaml doc))

end Yaml

/-! ### GitHub task source (`task-sources/github.ts`)

`runGhCommand` spawns `gh` and returns its trimmed standard output.  The
external world enters the model as inputs: the trimmed output string,
and the outcome of `JSON.parse` on it (`none` models a parse exception,
caught by the source). -/

/-- An issue record as selected by `--json number,title`. -/
structure Issue where
  number : Nat
  title : Str
deriving DecidableEq, Repr

/-- The `"<number>:<title>"` rendering of an issue. -/
def formatIssue (i : Issue) : Str := natDigits i.number ++ ':' :: i.title

namespace Github

/-- `GithubTaskSource.getRemainingTasks`: empty output or a JSON parse
failure yields the empty list. -/
def getRemainingTasks (output : Str) (parsed : Option (List Issue)) : List Str :=
  if output = [] then []
  else
    match parsed with
    | none => []
    | some issues => issues.map formatIssue

/-- `GithubTaskSource.countRemaining` is the length of
`getRemainingTasks`. -/
def countRemaining (output : Str) (parsed : Option (List Issue)) : Nat :=
  (getRemainingTasks output parsed).length

/-- `GithubTaskSource.countCompleted` over the closed-issue query. -/
def countCompleted (output : Str) (parsed : Option (List Issue)) : Nat :=
  if output = [] then 0
  else
    match parsed with
    | none => 0
    | some issues => issues.length

/-- `GithubTaskSource.getAllTasks`: open issues (incomplete) followed by
closed issues (completed); each query failure contributes nothing. -/
def getAllTasks (openOut : Str) (openParsed : Option (List Issue))
    (closedOut : Str) (closedParsed : Option (List Issue)) : List TaskEntry :=
  (if openOut = [] then []
   else
     match openParsed with
     | none => []
     | some issues => issues.map (fun i => TaskEntry.mk (formatIssue i) false)) ++
    (if closedOut = [] then []
     else
       match closedParsed with
       | none => []
       | some issues => issues.map (fun i => TaskEntry.mk (formatIssue i) true))

end Github

/-! ### Git manager (`git-manager.ts`) -/

/-- The branch name computed by `GitManager.createWorktree`:
`ralphy/agent-${agentNum}-${slugify(task)}`. -/
def branchName (agentNum : Nat) (task : Str) : Str :=
  "ralphy/agent-".toList ++ natDigits agentNum ++ '-' :: slugify task

/-! ### Parallel executor (`parallel-executor.ts`) -/

/-- `ParallelExecutor.runBatches`: slice the task snapshot into batches
of at most `maxParallel`, pairing each task with its run-wide agent
number `i + idx + 1`; after a batch, stop when `maxIterations` is
positive and the accumulated result count reaches it.  `resLen` is
`this.results.length` on entry and `i` the slice offset.  The model is
faithful for `maxParallel ≥ 1`; with `maxParallel = 0` the source loops
forever, and every theorem below assumes `1 ≤ maxParallel`. -/
def runBatchesFuel (maxParallel cap : Nat) :
    Nat → Nat → Nat → List α → List (List (α × Nat))
  | 0, _, _, _ => []
  | _ + 1, _, _, [] => []
  | fuel + 1, resLen, i, t :: ts =>
    let batch := (t :: ts).take maxParallel
    let dispatched := batch.zip (List.range' (i + 1) batch.length)
    let newRes := resLen + batch.length
    dispatched ::
      (if 0 < cap ∧ cap ≤ newRes then []
       else runBatchesFuel maxParallel cap fuel newRes (i + maxParallel)
          (ts.drop (maxParallel - 1)))

/-- The loop of `runBatches`, with the fuel fixed at the task count (the
loop consumes at least one task per iteration, so this fuel is enough;
`runBatchesFuel_irrel` below makes that precise). -/
def runBatchesGo (maxParallel cap : Nat) (resLen i : Nat) (tasks : List α) :
    List (List (α × Nat)) :=
  runBatchesFuel maxParallel cap tasks.length resLen i tasks

/-- `runBatches` as called on a fresh executor (`this.results = []`). -/
def runBatches (maxParallel cap : Nat) (tasks : List α) : List (List (α × Nat)) :=
  runBatchesGo maxParallel cap 0 0 tasks

/-- One run-state snapshot of `runWithGroups`: the current document
lines and `this.results.length`. -/
structure GroupRunState where
  doc : List Str
  resLen : Nat
  dispatches : List (List (List (Str × Nat)))
deriving Repr

/-- The body of the `for (const group of groups)` loop of
`runWithGroups`: re-read the group's incomplete tasks from the current
document, batch them, and mark each dispatched task complete. -/
def runGroupStep (maxParallel cap : Nat) (st : GroupRunState) (g : Int) : GroupRunState :=
  let tasks := Yaml.getTasksByGroup st.doc g
  let dispatch := runBatchesGo maxParallel cap st.resLen 0 tasks
  let doneTasks := (dispatch.flatten).map Prod.fst
  { doc := doneTasks.foldl Yaml.markComplete st.doc
    resLen := st.resLen + dispatch.flatten.length
    dispatches := st.dispatches ++ [dispatch] }

/-- `ParallelExecutor.runWithGroups`: fetch the group ids once, then per
group re-read the document, batch its incomplete tasks, and mark each
dispatched task complete (the source marks a task complete as its agent
finishes; the model applies the marks in dispatch order). -/
def runWithGroups (maxParallel cap : Nat) (doc : List Str) :
    List (List (List (Str × Nat))) :=
  ((Yaml.getParallelGroups doc).foldl (runGroupStep maxParallel cap)
      ⟨doc, 0, []⟩).dispatches

/-- The result record of `runAgent` as far as reconciliation uses it. -/
structure AgentResult where
  task : Str
  success : Bool
  branch : Str
deriving DecidableEq, Repr

/-- Git operations issued by `handleCompletedBranches`, in order. -/
inductive GitEvent where
  | mergeCall (branch : Str)
  | conflictQuery
  | resolveAttempt (files : List Str)
  | abortCall
deriving DecidableEq, Repr

/-- The sequential merge loop: one `mergeBranch` call per successful
branch, collecting the branches whose merge failed.  `outcome k` is the
result of the `k`-th `mergeBranch` call. -/
def mergePhase (outcome : Nat → Bool) : Nat → List Str → List GitEvent × List Str
  | _, [] => ([], [])
  | k, b :: bs =>
    let rest := mergePhase outcome (k + 1) bs
    (GitEvent.mergeCall b :: rest.1,
      if outcome k then rest.2 else b :: rest.2)

/-- The conflict-resolution loop over the failed branches: query the
conflicted files (`conflicts k` is the answer of the `k`-th query),
delegate one resolution attempt when any are reported, then always
abort the merge. -/
def resolvePhase (conflicts : Nat → List Str) : Nat → List Str → List GitEvent
  | _, [] => []
  | k, _ :: bs =>
    (GitEvent.conflictQuery ::
        (if conflicts k = [] then [] else [GitEvent.resolveAttempt (conflicts k)]) ++
          [GitEvent.abortCall]) ++
      resolvePhase conflicts (k + 1) bs

/-- The branches reconciliation operates on:
`results.filter(r => r.success && r.branch).map(r => r.branch)`. -/
def successfulBranches (results : List AgentResult) : List Str :=
  (results.filter (fun r => r.success && !r.branch.isEmpty)).map (fun r => r.branch)

/-- `ParallelExecutor.handleCompletedBranches`: returns the git trace
and the reported list of unresolved (failed-merge) branches.  In
pull-request mode no merging happens. -/
def handleCompletedBranches (createPr : Bool) (results : List AgentResult)
    (outcome : Nat → Bool) (conflicts : Nat → List Str) :
    List GitEvent × List Str :=
  if createPr then ([], [])
  else
    let merged := mergePhase outcome 0 (successfulBranches results)
    (merged.1 ++ resolvePhase conflicts 0 merged.2, merged.2)


/-! ## Supporting lemmas -/

/-- C6: `getParallelGroups` returns a strictly ascending, duplicate-free
list containing exactly the group ids (missing group read as 0) that
have at least one incomplete task. -/
theorem claim6_parallel_groups (doc : List Str) :
    List.Sorted (· < ·) (Yaml.getParallelGroups doc) ∧
      (Yaml.getParallelGroups doc).Nodup ∧
      ∀ g : Int, g ∈ Yaml.getParallelGroups doc ↔
        ∃ t ∈ parseSimpleYaml doc, t.completed = false ∧ t.parallel_group.getD 0 = g := by
  have hnd : (Yaml.getParallelGroups doc).Nodup := by
    rw [Yaml.getParallelGroups]
    exact (List.perm_insertionSort _ _).symm.nodup (List.nodup_dedup _)
  have hle : List.Sorted (· ≤ ·) (Yaml.getParallelGroups doc) := by
    rw [Yaml.getParallelGroups]
    exact List.sorted_insertionSort _ _
  refine ⟨hle.lt_of_le hnd, hnd, ?_⟩
  intro g
  rw [Yaml.getParallelGroups, List.mem_insertionSort, List.mem_dedup, List.mem_map]
  constructor
  · rintro ⟨t, ht, rfl⟩
    rw [List.mem_filter] at ht
    exact ⟨t, ht.1, by simpa using ht.2, rfl⟩
  · rintro ⟨t, ht, hc, rfl⟩
    exact ⟨t, List.mem_filter.mpr ⟨ht, by simpa using hc⟩, rfl⟩

/-- C8: for each task-source variant, a backing-store failure
(unreadable file for the document-backed sources; empty or unparsable
command output for the tracker source) yields an empty list or zero
count from the read-only operations. -/
theorem claim8_error_swallowing :
    (Markdown.getRemainingTasks (readLines none) = [] ∧
      Markdown.getAllTasks (readLines none) = [] ∧
      Markdown.countRemaining (readLines none) = 0 ∧
      Markdown.countCompleted (readLines none) = 0) ∧
    (Yaml.getRemainingTasks (readLines none) = [] ∧
      Yaml.getAllTasks (readLines none) = [] ∧
      Yaml.countRemaining (readLines none) = 0 ∧
      Yaml.countCompleted (readLines none) = 0) ∧
    (∀ output : Str, Github.getRemainingTasks output none = [] ∧
      Github.countRemaining output none = 0 ∧
      Github.countCompleted output none = 0) ∧
    (∀ parsed : Option (List Issue), Github.getRemainingTasks [] parsed = [] ∧
      Github.countRemaining [] parsed = 0 ∧
      Github.countCompleted [] parsed = 0) ∧
    (∀ openOut closedOut : Str, Github.getAllTasks openOut none closedOut none = []) := by
  refine ⟨by decide, by decide, ?_, ?_, ?_⟩
  · intro output
    have h1 : Github.getRemainingTasks output none = [] := by
      rw [Github.getRemainingTasks.eq_def]
      split <;> rfl
    refine ⟨h1, ?_, ?_⟩
    · show (Github.getRemainingTasks output none).length = 0
      rw [h1]
      rfl
    · rw [Github.countCompleted.eq_def]
      split <;> rfl
  · intro parsed
    refine ⟨by rfl, by rfl, by rfl⟩
  · intro openOut closedOut
    rw [Github.getAllTasks.eq_def]
    repeat' split
    all_goals simp_all

/-! ## Markdown checklist claims -/

theorem runBatchesGo_nil {α : Type} (N cap r i : Nat) :
    runBatchesGo N cap r i ([] : List α) = [] := rfl

theorem runBatchesFuel_irrel {α : Type} (N cap : Nat) :
    ∀ (fuel fuel' r i : Nat) (tasks : List α), tasks.length ≤ fuel →
      tasks.length ≤ fuel' →
      runBatchesFuel N cap fuel r i tasks = runBatchesFuel N cap fuel' r i tasks := by
  intro fuel
  induction fuel with
  | zero =>
    intro fuel' r i tasks h h'
    have hnil : tasks = [] := by
      cases tasks
      · rfl
      · simp at h
    subst hnil
    cases fuel' <;> rfl
  | succ f ih =>
    intro fuel' r i tasks h h'
    cases tasks with
    | nil => cases fuel' <;> rfl
    | cons t ts =>
      cases fuel' with
      | zero => simp at h'
      | succ f' =>
        rw [runBatchesFuel, runBatchesFuel]
        congr 1
        split_ifs
        · rfl
        · apply ih
          · rw [List.length_drop]
            simp only [List.length_cons] at h
            omega
          · rw [List.length_drop]
            simp only [List.length_cons] at h'
            omega

/-- The one-step unfolding of the batch loop. -/
theorem runBatchesGo_cons {α : Type} (N cap r i : Nat) (t : α) (ts : List α) :
    runBatchesGo N cap r i (t :: ts) =
      ((t :: ts).take N).zip (List.range' (i + 1) ((t :: ts).take N).length) ::
        (if 0 < cap ∧ cap ≤ r + ((t :: ts).take N).length then []
         else runBatchesGo N cap (r + ((t :: ts).take N).length) (i + N)
            (ts.drop (N - 1))) := by
  rw [runBatchesGo]
  rw [show (t :: ts).length = ts.length + 1 from rfl]
  rw [runBatchesFuel]
  congr 1
  split_ifs
  · rfl
  · rw [runBatchesGo]
    apply runBatchesFuel_irrel
    · rw [List.length_drop]
      omega
    · exact Nat.le_refl _

/-! ## Scheduler claims -/

theorem runBatchesGo_cap0 {α : Type} (N : Nat) (hN : 1 ≤ N) :
    ∀ (tasks : List α) (r i : Nat),
      ((runBatchesGo N 0 r i tasks).map (fun b => b.map Prod.fst)).flatten = tasks ∧
      ((runBatchesGo N 0 r i tasks).map (fun b => b.map Prod.snd)).flatten =
        List.range' (i + 1) tasks.length ∧
      (runBatchesGo N 0 r i tasks).length = (tasks.length + N - 1) / N ∧
      ∀ b ∈ runBatchesGo N 0 r i tasks, b.length ≤ N
  | [], r, i => by
    refine ⟨by simp [runBatchesGo_nil], by simp [runBatchesGo_nil], ?_, by simp [runBatchesGo_nil]⟩
    simp only [runBatchesGo_nil, List.length_nil]
    exact (Nat.div_eq_of_lt (by omega)).symm
  | t :: ts, r, i => by
    have IH := runBatchesGo_cap0 N hN (ts.drop (N - 1))
      (r + ((t :: ts).take N).length) (i + N)
    obtain ⟨ih1, ih2, ih3, ih4⟩ := IH
    have hdrop : ts.drop (N - 1) = (t :: ts).drop N := by
      cases N with
      | zero => omega
      | succ n => simp [List.drop_succ_cons]
    have hbl : ((t :: ts).take N).length = min N (t :: ts).length :=
      List.length_take _ _
    have hrl : (List.range' (i + 1) ((t :: ts).take N).length).length =
        ((t :: ts).take N).length := List.length_range' _ _ _
    have hfst : List.map Prod.fst
        (((t :: ts).take N).zip (List.range' (i + 1) ((t :: ts).take N).length)) =
        (t :: ts).take N :=
      List.map_fst_zip _ _ (by rw [hrl])
    have hsnd : List.map Prod.snd
        (((t :: ts).take N).zip (List.range' (i + 1) ((t :: ts).take N).length)) =
        List.range' (i + 1) ((t :: ts).take N).length :=
      List.map_snd_zip _ _ (by rw [hrl])
    rw [runBatchesGo_cons]
    simp only [show ¬(0 < 0 ∧ (0 : Nat) ≤ r + ((t :: ts).take N).length) from by omega,
      if_false, List.map_cons, List.flatten_cons]
    refine ⟨?_, ?_, ?_, ?_⟩
    · rw [hfst, ih1, hdrop, List.take_append_drop]
    · rw [hsnd, ih2, hdrop]
      by_cases hNM : N ≤ (t :: ts).length
      · have hb : ((t :: ts).take N).length = N := by rw [hbl]; omega
        have hd : ((t :: ts).drop N).length = (t :: ts).length - N :=
          List.length_drop _ _
        rw [hb, hd]
        have := List.range'_append (i + 1) N ((t :: ts).length - N) 1
        simp only [one_mul] at this
        rw [show i + N + 1 = i + 1 + N from by omega, this]
        congr 1
        omega
      · have hdnil : (t :: ts).drop N = [] := by
          rw [List.drop_eq_nil_iff]
          omega
        have hb : ((t :: ts).take N).length = (t :: ts).length := by rw [hbl]; omega
        rw [hdnil, hb]
        try simp [runBatchesGo_nil]
    · rw [List.length_cons, ih3, hdrop]
      by_cases hNM : N ≤ (t :: ts).length
      · have hd : ((t :: ts).drop N).length = (t :: ts).length - N :=
          List.length_drop _ _
        have hM1 : 1 ≤ (t :: ts).length := by simp
        rw [hd]
        rw [show (t :: ts).length - N + N - 1 = (t :: ts).length - 1 from by omega]
        rw [show (t :: ts).length + N - 1 = ((t :: ts).length - 1) + N from by omega]
        rw [Nat.add_div_right _ (by omega)]
      · have hdnil : (t :: ts).drop N = [] := by
          rw [List.drop_eq_nil_iff]
          omega
        have hM1 : 1 ≤ (t :: ts).length := by simp
        rw [hdnil]
        simp only [runBatchesGo_nil, List.length_nil]
        rw [show ((t :: ts).length + N - 1) / N = 1 from
          Nat.div_eq_of_lt_le (by omega) (by omega)]
        rw [show (0 + N - 1) / N = 0 from Nat.div_eq_of_lt (by omega)]
    · intro b hb
      rcases List.mem_cons.mp hb with rfl | hmem
      · rw [List.length_zip, hrl]
        simp only [Nat.min_self]
        exact List.length_take_le _ _
      · exact ih4 b hmem
termination_by tasks => tasks.length
decreasing_by
  simp only [List.length_drop, List.length_cons]
  omega

/-- C1: for an ungrouped run with `1 ≤ maxParallel` and no iteration
cap, `runBatches` dispatches exactly `ceil(M / maxParallel)` batches,
each a contiguous slice of at most `maxParallel` tasks preserving
backlog order, and the agent numbers across the run are exactly the
sequence `1..M`. -/
theorem claim1_scheduler_batches {α : Type} (N : Nat) (hN : 1 ≤ N) (tasks : List α)
    (hM : 1 ≤ tasks.length) :
    (runBatches N 0 tasks).length = (tasks.length + N - 1) / N ∧
      (∀ b ∈ runBatches N 0 tasks, b.length ≤ N) ∧
      ((runBatches N 0 tasks).map (fun b => b.map Prod.fst)).flatten = tasks ∧
      ((runBatches N 0 tasks).map (fun b => b.map Prod.snd)).flatten =
        List.range' 1 tasks.length := by
  obtain ⟨h1, h2, h3, h4⟩ := runBatchesGo_cap0 N hN tasks 0 0
  exact ⟨h3, h4, h1, h2⟩

/-- Witness for C1 matching the spec example: `maxParallel = 2` and five
tasks give batch count 3 and slots `1..5`. -/
theorem claim1_witness :
    (runBatches 2 0 ([10, 20, 30, 40, 50] : List Nat)).length = 3 ∧
      ((runBatches 2 0 ([10, 20, 30, 40, 50] : List Nat)).map
          (fun b => b.map Prod.snd)).flatten = List.range' 1 5 := by
  have h := claim1_scheduler_batches 2 (by decide) ([10, 20, 30, 40, 50] : List Nat)
    (by decide)
  exact ⟨h.1.trans (by norm_num), h.2.2.2⟩



theorem runWithGroups_mem (N cap : Nat) (doc : List Str) :
    ∀ d ∈ runWithGroups N cap doc, ∃ r tasks, d = runBatchesGo N cap r 0 tasks := by
  rw [runWithGroups]
  suffices h : ∀ (gs : List Int) (st : GroupRunState),
      (∀ d ∈ st.dispatches, ∃ r tasks, d = runBatchesGo N cap r 0 tasks) →
      ∀ d ∈ (gs.foldl (runGroupStep N cap) st).dispatches,
        ∃ r tasks, d = runBatchesGo N cap r 0 tasks by
    exact h (Yaml.getParallelGroups doc) ⟨doc, 0, []⟩ (by simp)
  intro gs
  induction gs with
  | nil =>
    intro st h d hd
    exact h d hd
  | cons g gs ih =>
    intro st h
    rw [List.foldl_cons]
    apply ih
    intro d hd
    rw [runGroupStep] at hd
    simp only [List.mem_append] at hd
    rcases hd with hd | hd
    · exact h d hd
    · simp only [List.mem_singleton] at hd
      exact ⟨st.resLen, Yaml.getTasksByGroup st.doc g, hd⟩

/-- C2 counterexample: a grouped run restarts agent numbering at 1 for
every group (`runBatches` numbers slots `i + idx + 1` with `i` local to
the call), so with one task in group 1 and one in group 2 both tasks get
slot 1, and since their titles slugify identically the generated branch
names collide. -/
theorem claim2_counterexample :
    (((runWithGroups 1 0
          ["tasks:".toList,
           "  - title: \"task a\"".toList,
           "    parallel_group: 1".toList,
           "  - title: \"task.a\"".toList,
           "    parallel_group: 2".toList]).flatten.flatten.map Prod.snd) = [1, 1]) ∧
      ¬ ((runWithGroups 1 0
          ["tasks:".toList,
           "  - title: \"task a\"".toList,
           "    parallel_group: 1".toList,
           "  - title: \"task.a\"".toList,
           "    parallel_group: 2".toList]).flatten.flatten.map
            (fun p => branchName p.2 p.1)).Nodup := by
  constructor
  · decide
  · decide

/-- C2 amended: slot numbers are pairwise distinct within one
batch-scheduler invocation — each group of a grouped run dispatches
slots `1..M_g` — but every group restarts at slot 1, so numbers are
reused across groups and branch names can collide across groups. -/
theorem claim2_amended (N : Nat) (hN : 1 ≤ N) (doc : List Str) :
    ∀ d ∈ runWithGroups N 0 doc,
      (d.map (fun b => b.map Prod.snd)).flatten =
        List.range' 1 ((d.map (fun b => b.map Prod.fst)).flatten).length := by
  intro d hd
  obtain ⟨r, tasks, rfl⟩ := runWithGroups_mem N 0 doc d hd
  obtain ⟨h1, h2, _, _⟩ := runBatchesGo_cap0 N hN tasks r 0
  rw [h1, h2]

/-- Witness for C2 amended on the two-group document. -/
theorem claim2_witness :
    1 ≤ 1 ∧
      ∀ d ∈ runWithGroups 1 0
          ["tasks:".toList,
           "  - title: \"task a\"".toList,
           "    parallel_group: 1".toList,
           "  - title: \"task.a\"".toList,
           "    parallel_group: 2".toList],
        (d.map (fun b => b.map Prod.snd)).flatten =
          List.range' 1 ((d.map (fun b => b.map Prod.fst)).flatten).length :=
  ⟨by decide, claim2_amended 1 (by decide)
    ["tasks:".toList,
     "  - title: \"task a\"".toList,
     "    parallel_group: 1".toList,
     "  - title: \"task.a\"".toList,
     "    parallel_group: 2".toList]⟩

theorem mergePhase_events (outcome : Nat → Bool) :
    ∀ (k : Nat) (bs : List Str),
      (mergePhase outcome k bs).1 = bs.map GitEvent.mergeCall := by
  intro k bs
  induction bs generalizing k with
  | nil => rfl
  | cons b bs ih =>
    rw [mergePhase]
    simp only [List.map_cons]
    rw [ih (k + 1)]

theorem mergePhase_failed_iff (outcome : Nat → Bool) :
    ∀ (bs : List Str) (k : Nat) (b : Str),
      b ∈ (mergePhase outcome k bs).2 ↔
        ∃ j, bs[j]? = some b ∧ outcome (k + j) = false := by
  intro bs
  induction bs with
  | nil =>
    intro k b
    simp [mergePhase]
  | cons hd tl ih =>
    intro k b
    rw [mergePhase]
    dsimp only
    constructor
    · intro hmem
      by_cases ho : outcome k = true
      · rw [if_pos ho] at hmem
        obtain ⟨j, hj, hout⟩ := (ih (k + 1) b).mp hmem
        refine ⟨j + 1, by simpa using hj, ?_⟩
        rw [show k + (j + 1) = k + 1 + j from by omega]
        exact hout
      · rw [if_neg ho] at hmem
        rcases List.mem_cons.mp hmem with rfl | hmem
        · refine ⟨0, by simp, ?_⟩
          simpa using ho
        · obtain ⟨j, hj, hout⟩ := (ih (k + 1) b).mp hmem
          refine ⟨j + 1, by simpa using hj, ?_⟩
          rw [show k + (j + 1) = k + 1 + j from by omega]
          exact hout
    · rintro ⟨j, hj, hout⟩
      cases j with
      | zero =>
        simp only [List.getElem?_cons_zero, Option.some.injEq] at hj
        rw [Nat.add_zero] at hout
        rw [if_neg (by simp [hout])]
        rw [← hj]
        exact List.mem_cons_self _ _
      | succ j =>
        have hmem : b ∈ (mergePhase outcome (k + 1) tl).2 := by
          apply (ih (k + 1) b).mpr
          refine ⟨j, by simpa using hj, ?_⟩
          rw [show k + 1 + j = k + (j + 1) from by omega]
          exact hout
        by_cases ho : outcome k = true
        · rw [if_pos ho]
          exact hmem
        · rw [if_neg ho]
          exact List.mem_cons_of_mem _ hmem

theorem resolvePhase_no_merge (conflicts : Nat → List Str) :
    ∀ (bs : List Str) (k : Nat), ∀ e ∈ resolvePhase conflicts k bs,
      ∀ b : Str, e ≠ GitEvent.mergeCall b := by
  intro bs
  induction bs with
  | nil =>
    intro k e he
    simp [resolvePhase] at he
  | cons hd tl ih =>
    intro k e he b
    rw [resolvePhase] at he
    rcases List.mem_append.mp he with he | he
    · rcases List.mem_cons.mp he with rfl | he
      · simp
      · rcases List.mem_append.mp he with he | he
        · split at he
          · simp at he
          · simp only [List.mem_singleton] at he
            subst he
            simp
        · simp only [List.mem_singleton] at he
          subst he
          simp
    · exact ih (k + 1) e he b

theorem resolvePhase_count_abort (conflicts : Nat → List Str) :
    ∀ (bs : List Str) (k : Nat),
      (resolvePhase conflicts k bs).count GitEvent.abortCall = bs.length := by
  intro bs
  induction bs with
  | nil =>
    intro k
    rfl
  | cons hd tl ih =>
    intro k
    rw [resolvePhase, List.count_append, ih (k + 1)]
    have hblock : ((GitEvent.conflictQuery ::
        (if conflicts k = [] then [] else [GitEvent.resolveAttempt (conflicts k)])) ++
          [GitEvent.abortCall]).count GitEvent.abortCall = 1 := by
      rw [List.count_append, List.count_cons]
      split <;> simp
    rw [hblock]
    simp [Nat.add_comm]


/-- C4 amended: provided the successful-branch list contains no
duplicate name (the executor can emit duplicates when grouped slot
numbers collide, see C2), a branch whose merge call fails is recorded in
the unresolved report, `mergeBranch` is called exactly once on it in the
whole reconciliation trace, the resolution loop issues no merge call at
all, and one `abortMerge` is issued per failed branch regardless of the
resolution outcome. -/
theorem claim4_amended (results : List AgentResult) (outcome : Nat → Bool)
    (conflicts : Nat → List Str) (b : Str) (j : Nat)
    (hnd : (successfulBranches results).Nodup)
    (hb : (successfulBranches results)[j]? = some b)
    (hfail : outcome j = false) :
    b ∈ (handleCompletedBranches false results outcome conflicts).2 ∧
      ((handleCompletedBranches false results outcome conflicts).1).count
          (GitEvent.mergeCall b) = 1 ∧
      ((handleCompletedBranches false results outcome conflicts).1).count
          GitEvent.abortCall =
        ((handleCompletedBranches false results outcome conflicts).2).length ∧
      ∀ e ∈ resolvePhase conflicts 0
          (handleCompletedBranches false results outcome conflicts).2,
        ∀ b2 : Str, e ≠ GitEvent.mergeCall b2 := by
  have hH : handleCompletedBranches false results outcome conflicts =
      ((mergePhase outcome 0 (successfulBranches results)).1 ++
          resolvePhase conflicts 0 (mergePhase outcome 0 (successfulBranches results)).2,
        (mergePhase outcome 0 (successfulBranches results)).2) := rfl
  rw [hH]
  have hmem : b ∈ (mergePhase outcome 0 (successfulBranches results)).2 := by
    rw [mergePhase_failed_iff]
    exact ⟨j, hb, by simpa using hfail⟩
  refine ⟨hmem, ?_, ?_, ?_⟩
  · rw [List.count_append]
    have h1 : ((mergePhase outcome 0 (successfulBranches results)).1).count
        (GitEvent.mergeCall b) = 1 := by
      rw [mergePhase_events]
      rw [List.count_map_of_injective _ GitEvent.mergeCall
        (fun x y hxy => by simpa using hxy) b]
      exact List.count_eq_one_of_mem hnd (List.getElem?_mem hb)
    have h2 : (resolvePhase conflicts 0
        (mergePhase outcome 0 (successfulBranches results)).2).count
        (GitEvent.mergeCall b) = 0 := by
      rw [List.count_eq_zero]
      intro hc
      exact resolvePhase_no_merge conflicts _ 0 _ hc b rfl
    rw [h1, h2]
  · rw [List.count_append]
    have h1 : ((mergePhase outcome 0 (successfulBranches results)).1).count
        GitEvent.abortCall = 0 := by
      rw [mergePhase_events, List.count_eq_zero]
      intro hc
      rw [List.mem_map] at hc
      obtain ⟨a, _, ha⟩ := hc
      cases ha
    rw [h1, resolvePhase_count_abort]
    simp
  · exact fun e he b2 => resolvePhase_no_merge conflicts _ 0 e he b2

/-- C4 counterexample: when the same branch name appears twice among the
successful results (reachable, since grouped runs reuse slot numbers and
can produce colliding branch names), the first merge of `b` fails (every
merge outcome is `false` here) yet `mergeBranch` is invoked on `b` a
second time in the same run. -/
theorem claim4_counterexample :
    ((handleCompletedBranches false
        [⟨"t1".toList, true, "b".toList⟩, ⟨"t2".toList, true, "b".toList⟩]
        (fun _ => false) (fun _ => [])).1).count (GitEvent.mergeCall "b".toList) = 2 ∧
      "b".toList ∈ (handleCompletedBranches false
        [⟨"t1".toList, true, "b".toList⟩, ⟨"t2".toList, true, "b".toList⟩]
        (fun _ => false) (fun _ => [])).2 := by
  exact ⟨by decide, by decide⟩

/-- Witness for C4 amended on a single failing branch with one
conflicted file. -/
theorem claim4_witness :
    ("b2".toList ∈ (handleCompletedBranches false
        [⟨"t".toList, true, "b2".toList⟩] (fun _ => false) (fun _ => ["f".toList])).2 ∧
      ((handleCompletedBranches false [⟨"t".toList, true, "b2".toList⟩]
          (fun _ => false) (fun _ => ["f".toList])).1).count
          (GitEvent.mergeCall "b2".toList) = 1 ∧
      ((handleCompletedBranches false [⟨"t".toList, true, "b2".toList⟩]
          (fun _ => false) (fun _ => ["f".toList])).1).count GitEvent.abortCall =
        ((handleCompletedBranches false [⟨"t".toList, true, "b2".toList⟩]
            (fun _ => false) (fun _ => ["f".toList])).2).length ∧
      ∀ e ∈ resolvePhase (fun _ => ["f".toList]) 0
          (handleCompletedBranches false [⟨"t".toList, true, "b2".toList⟩]
            (fun _ => false) (fun _ => ["f".toList])).2,
        ∀ b2 : Str, e ≠ GitEvent.mergeCall b2) :=
  claim4_amended [⟨"t".toList, true, "b2".toList⟩] (fun _ => false)
    (fun _ => ["f".toList]) "b2".toList 0 (by decide) (by decide) rfl


/-! ## Branch-name claims -/

theorem collapse_skip_mem : ∀ l : Str,
    (∀ c ∈ collapseRuns l, slugChar c = true ∨ c = '-') ∧
    (∀ c ∈ skipRun l, slugChar c = true ∨ c = '-') := by
  intro l
  induction l with
  | nil =>
    constructor <;> intro c hc <;> simp [collapseRuns, skipRun] at hc
  | cons x xs ih =>
    constructor
    · intro c hc
      rw [collapseRuns] at hc
      split at hc
      · rcases List.mem_cons.mp hc with rfl | hc
        · exact Or.inl (by assumption)
        · exact ih.1 c hc
      · rcases List.mem_cons.mp hc with rfl | hc
        · exact Or.inr rfl
        · exact ih.2 c hc
    · intro c hc
      rw [skipRun] at hc
      split at hc
      · rcases List.mem_cons.mp hc with rfl | hc
        · exact Or.inl (by assumption)
        · exact ih.1 c hc
      · exact ih.2 c hc

theorem skipRun_head : ∀ l : Str, ∀ c r, skipRun l = c :: r → slugChar c = true := by
  intro l
  induction l with
  | nil =>
    intro c r h
    simp [skipRun] at h
  | cons x xs ih =>
    intro c r h
    rw [skipRun] at h
    split at h
    · cases h
      assumption
    · exact ih c r h

theorem collapse_head_after_dash : ∀ l r : Str, collapseRuns l = '-' :: r →
    ∀ c r2, r = c :: r2 → slugChar c = true := by
  intro l
  cases l with
  | nil =>
    intro r h
    simp [collapseRuns] at h
  | cons x xs =>
    intro r h c r2 hr
    rw [collapseRuns] at h
    split at h
    · next hx =>
      cases h
      exact absurd hx (by simp_all [slugChar])
    · cases h
      exact skipRun_head xs c r2 hr

theorem head?_dropLast {x : Str} {c : Char} (h : x.dropLast.head? = some c) :
    x.head? = some c := by
  cases x with
  | nil => simp at h
  | cons a t =>
    cases t with
    | nil => simp at h
    | cons b t2 =>
      simp [List.dropLast] at h ⊢
      simpa using h

theorem slugify_head (text : Str) (c : Char) (h : (slugify text).head? = some c) :
    slugChar c = true := by
  rw [slugify, List.head?_take, if_neg (by omega)] at h
  rw [stripTailHyphen] at h
  have h2 : (stripLeadHyphen (collapseRuns (jsToLower text))).head? = some c := by
    split at h
    · exact head?_dropLast h
    · exact h
  rw [stripLeadHyphen] at h2
  split at h2
  · next h0 =>
    rcases hc : collapseRuns (jsToLower text) with _ | ⟨c0, rest⟩
    · rw [hc] at h2
      simp at h2
    · rw [hc] at h0
      simp at h0
      subst h0
      rw [hc] at h2
      simp only [List.tail_cons] at h2
      cases hr : rest with
      | nil =>
        rw [hr] at h2
        simp at h2
      | cons c1 r2 =>
        rw [hr] at h2
        simp only [List.head?_cons, Option.some.injEq] at h2
        subst h2
        exact collapse_head_after_dash _ _ hc c1 r2 hr
  · next h0 =>
    have hmem : c ∈ collapseRuns (jsToLower text) := by
      cases hc : collapseRuns (jsToLower text) with
      | nil =>
        rw [hc] at h2
        simp at h2
      | cons c0 rest =>
        rw [hc] at h2
        simp only [List.head?_cons, Option.some.injEq] at h2
        subst h2
        exact List.mem_cons_self _ _
    rcases (collapse_skip_mem (jsToLower text)).1 c hmem with hs | hs
    · exact hs
    · subst hs
      exact absurd h2 h0

theorem slugify_mem (text : Str) : ∀ c ∈ slugify text, slugChar c = true ∨ c = '-' := by
  intro c hc
  rw [slugify] at hc
  have h1 := (List.take_sublist _ _).mem hc
  have h2 : c ∈ stripLeadHyphen (collapseRuns (jsToLower text)) := by
    rw [stripTailHyphen] at h1
    split at h1
    · exact (List.dropLast_sublist _).mem h1
    · exact h1
  have h3 : c ∈ collapseRuns (jsToLower text) := by
    rw [stripLeadHyphen] at h2
    split at h2
    · exact (List.tail_sublist _).mem h2
    · exact h2
  exact (collapse_skip_mem (jsToLower text)).1 c h3

/-- C9: the worktree branch name is
`ralphy/agent-<n>-<slugify task>`, where the slug is at most 50
characters, consists only of lowercase ASCII letters, digits and
hyphens, and does not begin with a hyphen. -/
theorem claim9_branch_names (task : Str) (n : Nat) :
    branchName n task =
      "ralphy/agent-".toList ++ natDigits n ++ '-' :: slugify task ∧
      (slugify task).length ≤ 50 ∧
      (∀ c ∈ slugify task, ('a' ≤ c ∧ c ≤ 'z') ∨ ('0' ≤ c ∧ c ≤ '9') ∨ c = '-') ∧
      (slugify task).head? ≠ some '-' := by
  refine ⟨rfl, ?_, ?_, ?_⟩
  · rw [slugify]
    exact List.length_take_le _ _
  · intro c hc
    rcases slugify_mem task c hc with hs | hs
    · rw [slugChar, Bool.or_eq_true, Bool.and_eq_true, Bool.and_eq_true] at hs
      rcases hs with ⟨h1, h2⟩ | ⟨h1, h2⟩
      · exact Or.inl ⟨by simpa using h1, by simpa using h2⟩
      · exact Or.inr (Or.inl ⟨by simpa using h1, by simpa using h2⟩)
    · exact Or.inr (Or.inr hs)
  · intro h
    have := slugify_head task '-' h
    simp [slugChar] at this


end Ralphy
